import Mathlib

/-!
Verification development for the BlockNote block-tree projection layer.

The development shallowly embeds:
 - the public `Block` value (id, type, props, inline content, children);
 - the engine's flat node tree (`FNode`) with ProseMirror-style linear
   positions (each structural boundary token occupies one position unit,
   text occupies one unit per character);
 - position resolution and `getBlockInfoFromPos` (modelled from the spec,
   the helper is not part of the sources);
 - the editor facade operations from `BlockNoteEditor.ts`
   (`getTextCursorPosition`, `getMouseCursorPosition`, `forEachBlock`,
   `createLink`) translated from the source;
 - the tree mutator (`insertBlocks` / `updateBlock` / `removeBlocks` /
   `replaceBlocks`) and the flat-to-tree converter with its identity
   cache, modelled from the spec (their implementation files are not in
   the sources, only the facade that calls them).
-/

/-- One run of inline content: a text span together with the set of active
styles (mark names). -/
structure InlineRun where
  text : String
  styles : List String
deriving DecidableEq, Repr

/-- The public block value: `{ id, type, props, content, children }`.
`props` is kept as an association list of attribute name/value pairs. -/
inductive Block where
  | mk (id : String) (type : String) (props : List (String × String))
      (content : List InlineRun) (children : List Block)

def Block.id : Block → String
  | .mk i _ _ _ _ => i

def Block.type : Block → String
  | .mk _ t _ _ _ => t

def Block.props : Block → List (String × String)
  | .mk _ _ p _ _ => p

def Block.content : Block → List InlineRun
  | .mk _ _ _ c _ => c

def Block.children : Block → List Block
  | .mk _ _ _ _ ch => ch

/-- Replace a block's children, keeping every other field. -/
def Block.setChildren : Block → List Block → Block
  | .mk i t p c _, ch => .mk i t p c ch

mutual
/-- Size measure used for strong induction over the nested `Block` tree. -/
def blockSize : Block → Nat
  | .mk _ _ _ _ ch => 1 + forestSize ch
def forestSize : List Block → Nat
  | [] => 0
  | b :: rest => blockSize b + forestSize rest
end

/-- Error kinds of the projection layer (spec section 7).  `typeError`
models the JavaScript `TypeError` raised when a non-null assertion is
applied to an absent resolver result. -/
inductive BNError where
  | blockNotFound (id : String)
  | unknownBlockType (name : String)
  | typeError
deriving DecidableEq, Repr

/-! ## createLink (translated from `BlockNoteEditor.createLink`)

The editor state is modelled as the character sequence of the document
(each character with its set of active mark names) plus the selection
range.  A dispatched transaction is modelled as a returned new state;
`none` means the call returned without dispatching anything. -/

/-- A document character together with its active marks. -/
structure DocChar where
  ch : Char
  marks : List String
deriving DecidableEq, Repr

/-- Editor state for the link command: document content and selection. -/
structure LinkEditorState where
  doc : List DocChar
  selFrom : Nat
  selTo : Nat
deriving DecidableEq, Repr

/-- `doc.textBetween(from, to)`: the characters of the range as a string. -/
def textBetween (doc : List DocChar) (start stop : Nat) : String :=
  String.mk (((doc.drop start).take (stop - start)).map DocChar.ch)

/-- `tr.insertText(text, from, to)`: replace the range with the text
(inserted characters initially carry no marks). -/
def insertText (doc : List DocChar) (start stop : Nat) (text : String) :
    List DocChar :=
  doc.take start ++ text.data.map (fun c => ⟨c, []⟩) ++ doc.drop stop

/-- `tr.addMark(from, to, mark)`: add the mark to every character of the
range. -/
def addMark (doc : List DocChar) (start stop : Nat) (mark : String) :
    List DocChar :=
  doc.mapIdx (fun i dc =>
    if start ≤ i ∧ i < stop then ⟨dc.ch, mark :: dc.marks⟩ else dc)

/-- Translated from `BlockNoteEditor.createLink` (BlockNoteEditor.ts,
lines 639-657): an empty `url` returns immediately without dispatching;
otherwise the selected range is replaced by the link text (a missing or
empty `text` argument falls back to the selected text, since `!text` is
true for both `undefined` and `""`) and a link mark is added over it.
`none` models the absence of a dispatched transaction. -/
def createLink (url : String) (text? : Option String)
    (st : LinkEditorState) : Option LinkEditorState :=
  if url = "" then
    none
  else
    let text :=
      match text? with
      | none => textBetween st.doc st.selFrom st.selTo
      | some t => if t = "" then textBetween st.doc st.selFrom st.selTo else t
    let doc₁ := insertText st.doc st.selFrom st.selTo text
    let doc₂ := addMark doc₁ st.selFrom (st.selFrom + text.length)
      ("link:" ++ url)
    some { st with doc := doc₂ }

/-- The engine state after a call: a dispatched transaction replaces the
state, an absent one leaves it untouched. -/
def applyLinkResult (st : LinkEditorState) : Option LinkEditorState →
    LinkEditorState
  | none => st
  | some st' => st'

/-! ## The engine's flat node tree and linear positions

Modelled from the spec, section 3: every flat node occupies a contiguous
range; a structural (non-text) node is wrapped by exactly two boundary
tokens of one position unit each; text occupies one unit per character. -/

/-- A flat node: either a text run with marks, or a structural node with
a name, attributes and ordered children. -/
inductive FNode where
  | text (s : String) (marks : List String)
  | node (name : String) (attrs : List (String × String))
      (children : List FNode)

mutual
/-- The position span of a node: text is one unit per character, a
structural node adds one open and one close boundary token around its
content. -/
def FNode.nodeSize : FNode → Nat
  | .text s _ => s.length
  | .node _ _ ch => 2 + contentSizeL ch
/-- Total span of a sequence of child nodes. -/
def contentSizeL : List FNode → Nat
  | [] => 0
  | n :: rest => FNode.nodeSize n + contentSizeL rest
end

def FNode.name : FNode → String
  | .text _ _ => "text"
  | .node nm _ _ => nm

def FNode.attrs : FNode → List (String × String)
  | .text _ _ => []
  | .node _ a _ => a

def FNode.children : FNode → List FNode
  | .text _ _ => []
  | .node _ _ ch => ch

/-- The node's `id` attribute, if any. -/
def FNode.idAttr (n : FNode) : Option String :=
  n.attrs.lookup "id"

def FNode.childCount (n : FNode) : Nat :=
  n.children.length

def FNode.contentSize (n : FNode) : Nat :=
  contentSizeL n.children

/-- One level of a resolved position: the ancestor container, the index
of the child the position points into (or the number of children before
it, when the position sits at a boundary), and the absolute position of
the start of the ancestor's content. -/
structure PathEntry where
  node : FNode
  index : Nat
  contentStart : Nat

mutual
/-- Path entries contributed by a structural node strictly containing
`pos`, whose own span starts at absolute position `base`. -/
def descendNode : FNode → Nat → Nat → List PathEntry
  | .text _ _, _, _ => []
  | .node nm a ch, base, pos =>
    let (i2, deeper) := descendList ch (base + 1) pos 0
    ⟨FNode.node nm a ch, i2, base + 1⟩ :: deeper
/-- Walk a child sequence looking for the child strictly containing
`pos`; descend into structural children, stop at boundaries and inside
text.  `base` is the absolute position of the start of the remaining
children, `idx` the index of the first remaining child.  Returns the
index at this level and the path entries of the deeper levels. -/
def descendList : List FNode → Nat → Nat → Nat → Nat × List PathEntry
  | [], _, _, idx => (idx, [])
  | c :: rest, base, pos, idx =>
    if pos ≤ base then (idx, [])
    else if pos < base + c.nodeSize then
      match c with
      | .text _ _ => (idx, [])
      | .node _ _ _ => (idx, descendNode c base pos)
    else descendList rest (base + c.nodeSize) pos (idx + 1)
end

/-- Resolve an absolute position against the document: the chain of
enclosing containers from the document root down, mirroring the engine's
resolved-position object (`node(d)`, `index(d)`, `start(d)`). -/
def resolvePath (doc : FNode) (pos : Nat) : List PathEntry :=
  match doc with
  | .text _ _ => []
  | .node nm a ch =>
    let (i, deeper) := descendList ch 0 pos 0
    ⟨FNode.node nm a ch, i, 0⟩ :: deeper

/-- `$pos.index(d)`: index recorded at depth `d` of the path. -/
def pathIndexAt (path : List PathEntry) (d : Nat) : Nat :=
  ((path.get? d).map PathEntry.index).getD 0

/-- `$pos.node()`: the innermost container of the resolved position. -/
def innermostNode (path : List PathEntry) : Option FNode :=
  (path.getLast?).map PathEntry.node

def childCountOf : Option FNode → Nat
  | none => 0
  | some n => n.childCount

/-- The resolver's result record (spec section 4.3): the enclosing Block
Frame, its Content Node, the frame's content boundaries and its depth. -/
structure BlockInfo where
  node : FNode
  contentNode : Option FNode
  startPos : Nat
  endPos : Nat
  depth : Nat

/-- Modelled from the spec: `getBlockInfoFromPos` (the helper under
`extensions/Blocks/helpers/` is not part of the sources).  Spec section
4.3: `infoAtPosition(pos)` locates the deepest enclosing Block Frame
(`blockContainer` node) of the position and reports its content
boundaries and depth; it is absent when `pos` lies outside any Block
Frame (and for positions outside the document's coordinate range). -/
def getBlockInfoFromPos (doc : FNode) (pos : Nat) : Option BlockInfo :=
  if pos > doc.contentSize then none
  else
    match (((resolvePath doc pos).enum.filter
        (fun e => e.2.node.name = "blockContainer")).getLast?) with
    | none => none
    | some (d, e) =>
      some { node := e.node, contentNode := e.node.children.head?,
             startPos := e.contentStart,
             endPos := e.contentStart + e.node.contentSize,
             depth := d }

/-! ## Flat-to-tree conversion

Modelled from the spec, section 4.2 (the `nodeConversions` module is not
part of the sources): the Content Node's type name and attributes become
`type`/`props`, validated against the schema; its children become inline
runs, a run boundary occurring at any change of the active mark set; a
second child, the Children Group, is converted recursively.  The schema
is modelled as the list of registered block type names. -/

/-- Prepend a text span to a run list, merging with the first run when
the active mark set does not change at the boundary. -/
def addRun (s : String) (m : List String) : List InlineRun → List InlineRun
  | [] => [⟨s, m⟩]
  | r :: rest =>
    if r.styles = m then ⟨s ++ r.text, m⟩ :: rest else ⟨s, m⟩ :: r :: rest

/-- Convert a Content Node's children into inline runs; non-text children
carry no inline text in this model and are skipped. -/
def inlineToRuns : List FNode → List InlineRun
  | [] => []
  | .text s m :: rest => addRun s m (inlineToRuns rest)
  | .node _ _ _ :: rest => inlineToRuns rest

mutual
/-- Modelled from the spec: `toBlock(frame, schema)` without the cache
(section 4.2, steps 2-3; the cached variant over identity-tagged nodes is
`convertNode` below).  Reads the Content Node (first child) for
`type`/`props`/inline content, failing with `UnknownBlockType` when the
type has no schema entry, and recursively converts the Children Group
(second child) when present. -/
def nodeToBlock (schema : List String) : FNode → Except BNError Block
  | .text _ _ => .error (.unknownBlockType "text")
  | .node _ attrs ch =>
    match ch with
    | [] => .error (.unknownBlockType "")
    | .text _ _ :: _ => .error (.unknownBlockType "text")
    | .node ty props inl :: rest =>
      if ty ∈ schema then
        match rest with
        | [] =>
          .ok (.mk ((attrs.lookup "id").getD "") ty props
            (inlineToRuns inl) [])
        | .text _ _ :: _ => .error (.unknownBlockType "text")
        | .node _ _ gch :: _ => do
          let children ← nodesToBlocks schema gch
          .ok (.mk ((attrs.lookup "id").getD "") ty props
            (inlineToRuns inl) children)
      else .error (.unknownBlockType ty)
/-- Convert the Block Frames of a Children Group in order. -/
def nodesToBlocks (schema : List String) :
    List FNode → Except BNError (List Block)
  | [] => .ok []
  | n :: rest => do
    let b ← nodeToBlock schema n
    let bs ← nodesToBlocks schema rest
    .ok (b :: bs)
end

/-! ## Cursor queries (translated from `BlockNoteEditor.ts`) -/

/-- Result of `getTextCursorPosition`. -/
structure TextCursorPosition where
  block : Block
  prevBlock : Option Block
  nextBlock : Option Block

def optNodeToBlock (schema : List String) :
    Option FNode → Except BNError (Option Block)
  | none => .ok none
  | some n => (nodeToBlock schema n).map some

/-- Translated from `BlockNoteEditor.getTextCursorPosition`
(BlockNoteEditor.ts, lines 382-420).  The source applies a non-null
assertion to `getBlockInfoFromPos`; destructuring an absent result raises
a `TypeError`, modelled as `Except.error .typeError`.  Sibling frames are
computed exactly as in the source: the current frame's index is
`resolve(endPos).index(depth - 1)`, the sibling count is
`resolve(endPos + 1).node().childCount`, the previous sibling is
`resolve(startPos - 2).node()` and the next one
`resolve(endPos + 2).node()`. -/
def getTextCursorPosition (schema : List String) (doc : FNode)
    (selFrom : Nat) : Except BNError TextCursorPosition :=
  match getBlockInfoFromPos doc selFrom with
  | none => .error .typeError
  | some info =>
    let nodeIndex := pathIndexAt (resolvePath doc info.endPos)
      (info.depth - 1)
    let numNodes := childCountOf
      (innermostNode (resolvePath doc (info.endPos + 1)))
    let prevNode : Option FNode :=
      if nodeIndex > 0 then
        innermostNode (resolvePath doc (info.startPos - 2))
      else none
    let nextNode : Option FNode :=
      if nodeIndex < numNodes - 1 then
        innermostNode (resolvePath doc (info.endPos + 2))
      else none
    do
      let block ← nodeToBlock schema info.node
      let prevBlock ← optNodeToBlock schema prevNode
      let nextBlock ← optNodeToBlock schema nextNode
      .ok ⟨block, prevBlock, nextBlock⟩

/-- Result of `getMouseCursorPosition`. -/
structure MouseCursorPosition where
  block : Block

/-- Translated from `BlockNoteEditor.getMouseCursorPosition`
(BlockNoteEditor.ts, lines 350-376).  The engine's `posAtCoords` is an
external collaborator and is passed in as an optional position.  Both an
unresolvable coordinate and an absent `getBlockInfoFromPos` result return
`undefined` (here `.ok none`) rather than raising. -/
def getMouseCursorPosition (schema : List String) (doc : FNode)
    (posAtCoords : Option Nat) :
    Except BNError (Option MouseCursorPosition) :=
  match posAtCoords with
  | none => .ok none
  | some p =>
    match getBlockInfoFromPos doc p with
    | none => .ok none
    | some info => do
      let b ← nodeToBlock schema info.node
      .ok (some ⟨b⟩)

/-! ## Serialization of blocks into Block Frame fragments

Modelled from the spec, sections 3 and 4.4: a Block Frame is a
`blockContainer` node carrying the block id as an attribute, whose first
child is the Content Node (type name, props as attributes, inline runs as
text children) and whose second child, present exactly when the block has
nested blocks, is a `blockGroup` wrapping the children's frames. -/

mutual
/-- Modelled from the spec: `fragmentFrom` / "serializes each input
block into a Block Frame fragment" (section 4.4; the serialization
module is not part of the sources). -/
def blockToNode : Block → FNode
  | .mk i ty props content children =>
    let contentNode := FNode.node ty props
      (content.map (fun r => FNode.text r.text r.styles))
    FNode.node "blockContainer" [("id", i)]
      (match children with
       | [] => [contentNode]
       | c :: cs => [contentNode,
           FNode.node "blockGroup" [] (blocksToNodes (c :: cs))])
/-- Serialize a sequence of blocks into a fragment of Block Frames. -/
def blocksToNodes : List Block → List FNode
  | [] => []
  | b :: rest => blockToNode b :: blocksToNodes rest
end

/-- Adjacent runs carry distinct style sets: the shape every converter
output has, since a run boundary occurs only at a change of the active
mark set. -/
def runsNormalized : List InlineRun → Bool
  | [] => true
  | [_] => true
  | r1 :: r2 :: rest =>
    !(r1.styles == r2.styles) && runsNormalized (r2 :: rest)

mutual
/-- The block tree only uses registered types and normalized inline
content (recursively). -/
def blockWF (schema : List String) : Block → Bool
  | .mk _ ty _ content children =>
    decide (ty ∈ schema) && runsNormalized content &&
      forestWF schema children
def forestWF (schema : List String) : List Block → Bool
  | [] => true
  | b :: rest => blockWF schema b && forestWF schema rest
end

/-! ## The identity cache and the cached converter

Modelled from the spec, sections 4.1 and 4.2: flat nodes are compared by
object identity, modelled by an identity tag on each structural node (the
engine guarantees unchanged nodes retain their identity across
snapshots).  The cache is an association from identity to the previously
computed Block; `set` appends, `get` takes the first match. -/

/-- A flat node carrying its object identity (text runs are only read
through their parent Content Node and need no tag of their own). -/
inductive INode where
  | text (s : String) (marks : List String)
  | node (ident : Nat) (name : String) (attrs : List (String × String))
      (children : List INode)

def INode.ident : INode → Nat
  | .text _ _ => 0
  | .node id _ _ _ => id

mutual
def INode.size : INode → Nat
  | .text _ _ => 1
  | .node _ _ _ ch => 1 + INode.sizeL ch
def INode.sizeL : List INode → Nat
  | [] => 0
  | n :: rest => INode.size n + INode.sizeL rest
end

mutual
/-- All identity tags of the structural nodes of a subtree. -/
def INode.idents : INode → List Nat
  | .text _ _ => []
  | .node id _ _ ch => id :: INode.identsL ch
def INode.identsL : List INode → List Nat
  | [] => []
  | n :: rest => INode.idents n ++ INode.identsL rest
end

/-- The Identity Cache: association list from node identity to the Block
computed for it. -/
abbrev BlockCache := List (Nat × Block)

/-- `get(node)`: first entry for the identity, if any. -/
def cacheGet (c : BlockCache) (id : Nat) : Option Block :=
  match c with
  | [] => none
  | (k, b) :: rest => if k = id then some b else cacheGet rest id

/-- `set(node, block)`: record a computed Block (a set only ever follows
a failed get for the same identity, so appending preserves lookups). -/
def cacheSet (c : BlockCache) (id : Nat) (b : Block) : BlockCache :=
  c ++ [(id, b)]

def iInlineToRuns : List INode → List InlineRun
  | [] => []
  | .text s m :: rest => addRun s m (iInlineToRuns rest)
  | .node _ _ _ _ :: rest => iInlineToRuns rest

/-- The Block value computed for a frame: id attribute, content node
type/props, inline runs, converted children. -/
def mkConverted (attrs : List (String × String)) (ty : String)
    (props : List (String × String)) (inl : List INode)
    (children : List Block) : Block :=
  Block.mk ((attrs.lookup "id").getD "") ty props (iInlineToRuns inl) children

mutual
/-- Modelled from the spec: `toBlock(frame, schema)` with the Identity
Cache (section 4.2, steps 1-4): look the frame up by identity and return
on a hit; otherwise read the Content Node (`convertFrame`), convert the
Children Group recursively threading the cache (`convertGroup`), store
the result keyed by the frame's identity and return it. -/
def convertNode (schema : List String) : INode → BlockCache →
    (Except BNError Block) × BlockCache
  | .text _ _, cache => (.error (.unknownBlockType "text"), cache)
  | .node ident _ attrs ch, cache =>
    match cacheGet cache ident with
    | some b => (.ok b, cache)
    | none => convertFrame schema ident attrs ch cache
/-- Read the frame's Content Node (its first child): the type name is
validated against the schema, then the rest of the frame (the optional
Children Group) is processed. -/
def convertFrame (schema : List String) (ident : Nat)
    (attrs : List (String × String)) : List INode → BlockCache →
    (Except BNError Block) × BlockCache
  | [], cache => (.error (.unknownBlockType ""), cache)
  | .text _ _ :: _, cache => (.error (.unknownBlockType "text"), cache)
  | .node _ ty props inl :: rest, cache =>
    if ty ∈ schema then
      convertGroup schema ident attrs ty props inl rest cache
    else (.error (.unknownBlockType ty), cache)
/-- Convert the frame's Children Group when present, then build the
Block and store it in the cache keyed by the frame's identity. -/
def convertGroup (schema : List String) (ident : Nat)
    (attrs : List (String × String)) (ty : String)
    (props : List (String × String)) (inl : List INode) :
    List INode → BlockCache → (Except BNError Block) × BlockCache
  | [], cache =>
    (.ok (mkConverted attrs ty props inl []),
      cacheSet cache ident (mkConverted attrs ty props inl []))
  | .text _ _ :: _, cache => (.error (.unknownBlockType "text"), cache)
  | .node _ _ _ gch :: _, cache =>
    match convertForest schema gch cache with
    | (.error e, cache') => (.error e, cache')
    | (.ok children, cache') =>
      (.ok (mkConverted attrs ty props inl children),
        cacheSet cache' ident (mkConverted attrs ty props inl children))
/-- Convert a sequence of Block Frames in order, threading the cache. -/
def convertForest (schema : List String) : List INode → BlockCache →
    (Except BNError (List Block)) × BlockCache
  | [], cache => (.ok [], cache)
  | n :: rest, cache =>
    match convertNode schema n cache with
    | (.error e, cache') => (.error e, cache')
    | (.ok b, cache') =>
      match convertForest schema rest cache' with
      | (.error e, cache'') => (.error e, cache'')
      | (.ok bs, cache'') => (.ok (b :: bs), cache'')
end

/-- The document's top-level Block Frames: the children of the
document's first child (the group that wraps all top-level blocks). -/
def docTopFrames : INode → List INode
  | .text _ _ => []
  | .node _ _ _ [] => []
  | .node _ _ _ (g :: _) =>
    match g with
    | .text _ _ => []
    | .node _ _ _ gch => gch

/-- `topLevelBlocks` (translated from `BlockNoteEditor.topLevelBlocks`,
BlockNoteEditor.ts, lines 269-279): walk the document's first child's
direct children (the `descendants` callback returns `false` so it never
descends) and convert each through the cache. -/
def topLevelBlocks (schema : List String) (doc : INode)
    (cache : BlockCache) : (Except BNError (List Block)) × BlockCache :=
  convertForest schema (docTopFrames doc) cache

/-! ## The Tree Mutator

Modelled from the spec, section 4.4 (the `blockManipulation` module is
not part of the sources; `BlockNoteEditor.ts` only forwards to it).  The
document is modelled at the tree level as the list of top-level blocks;
an operation returns the new document or the error that aborted it, and
`applyMutation` reflects the single atomic transaction: an aborted call
leaves the engine state untouched.  Insertions are taken as
fully-specified blocks (the spec's id auto-generation and prop
defaulting for partial inputs are orthogonal to the claims settled
here). -/

mutual
/-- Resolve an id inside a block's subtree (the block itself first, then
its children depth-first). -/
def findInBlock (tid : String) : Block → Option Block
  | .mk i t p c ch =>
    if i = tid then some (.mk i t p c ch) else findInForest tid ch
/-- Resolve an id inside a forest, depth-first, first match. -/
def findInForest (tid : String) : List Block → Option Block
  | [] => none
  | b :: rest =>
    match findInBlock tid b with
    | some r => some r
    | none => findInForest tid rest
end

/-- Resolve every target id first; report the first id that does not
resolve to a live block. -/
def firstMissing (doc : List Block) : List String → Option String
  | [] => none
  | t :: rest =>
    match findInForest t doc with
    | some _ => firstMissing doc rest
    | none => some t

mutual
/-- Delete the full subtree of every block whose id is listed. -/
def removeFromBlock (ids : List String) : Block → Block
  | .mk i t p c ch => .mk i t p c (removeFromForest ids ch)
def removeFromForest (ids : List String) : List Block → List Block
  | [] => []
  | b :: rest =>
    if b.id ∈ ids then removeFromForest ids rest
    else removeFromBlock ids b :: removeFromForest ids rest
end

/-- Where new blocks go relative to the reference block. -/
inductive Placement where
  | before
  | after
  | nested
deriving DecidableEq, Repr

mutual
/-- Insert a fragment of blocks relative to the first block whose id is
`refId`: at the reference's start position (`before`), at its end
position (`after`), or at the first position inside its Children Group
(`nested`).  `none` when the reference does not resolve. -/
def insertInForest (blocks : List Block) (refId : String) (p : Placement) :
    List Block → Option (List Block)
  | [] => none
  | b :: rest =>
    if b.id = refId then
      match p with
      | .before => some (blocks ++ b :: rest)
      | .after => some (b :: (blocks ++ rest))
      | .nested => some (b.setChildren (blocks ++ b.children) :: rest)
    else
      match insertInChildren blocks refId p b with
      | some b' => some (b' :: rest)
      | none =>
        match insertInForest blocks refId p rest with
        | some rest' => some (b :: rest')
        | none => none
def insertInChildren (blocks : List Block) (refId : String) (p : Placement) :
    Block → Option Block
  | .mk i t pr c ch =>
    match insertInForest blocks refId p ch with
    | some ch' => some (.mk i t pr c ch')
    | none => none
end

/-- Modelled from the spec: `insertBlocks(blocks, reference, placement)`
(section 4.4): resolves the reference's Block Frame by id, failing with
`BlockNotFound` when absent, and inserts the fragment sequence at the
computed position. -/
def insertBlocks (blocks : List Block) (refId : String) (p : Placement)
    (doc : List Block) : Except BNError (List Block) :=
  match insertInForest blocks refId p doc with
  | some d => .ok d
  | none => .error (.blockNotFound refId)

/-- Modelled from the spec: `removeBlocks(targets)` (section 4.4):
resolves every target id first, failing with `BlockNotFound` naming the
missing id when any single one is absent (the whole call rejected,
nothing removed); otherwise deletes each resolved Block Frame's full
range. -/
def removeBlocks (targets : List String) (doc : List Block) :
    Except BNError (List Block) :=
  match firstMissing doc targets with
  | some t => .error (.blockNotFound t)
  | none => .ok (removeFromForest targets doc)

/-- Modelled from the spec: `replaceBlocks(targets, insertions)`
(section 4.4): resolves all targets with the same fail-fast rule as
`removeBlocks`, inserts the new fragment sequence at the position of the
first target, then deletes all targets' ranges.  (For a contiguous
same-depth run this coincides, at the tree level, with deleting the run
and inserting in its place.) -/
def replaceBlocks (targets : List String) (blocks : List Block)
    (doc : List Block) : Except BNError (List Block) :=
  match firstMissing doc targets with
  | some t => .error (.blockNotFound t)
  | none =>
    match targets with
    | [] => .ok doc
    | t :: _ =>
      match insertInForest blocks t .before doc with
      | some d => .ok (removeFromForest targets d)
      | none => .error (.blockNotFound t)

/-- A partial block for `updateBlock`: every field optional; a present
field replaces the existing one, an omitted field is inherited. -/
structure PartialBlock where
  id : Option String := none
  type : Option String := none
  props : Option (List (String × String)) := none
  content : Option (List InlineRun) := none
  children : Option (List Block) := none

/-- Per-prop merge: props present in the patch replace the existing
value, the rest keep their existing value byte-identical. -/
def mergeProps (old patch : List (String × String)) :
    List (String × String) :=
  old.map (fun kv => (kv.1, (patch.lookup kv.1).getD kv.2)) ++
    patch.filter (fun kv => (old.lookup kv.1).isNone)

/-- Apply a patch to an existing block: each present field replaces the
corresponding field, each omitted field is left byte-identical; the
existing Children Group is preserved untouched unless the patch itself
carries children. -/
def mergeBlock (old : Block) (p : PartialBlock) : Block :=
  match old with
  | .mk i t pr c ch =>
    .mk (p.id.getD i) (p.type.getD t)
      (match p.props with
       | none => pr
       | some ps => mergeProps pr ps)
      (p.content.getD c) (p.children.getD ch)

mutual
/-- Replace the first block (depth-first) whose id is `tid` by its
patched version; `none` when the target does not resolve. -/
def updateInForest (tid : String) (p : PartialBlock) :
    List Block → Option (List Block)
  | [] => none
  | b :: rest =>
    if b.id = tid then some (mergeBlock b p :: rest)
    else
      match updateInChildren tid p b with
      | some b' => some (b' :: rest)
      | none =>
        match updateInForest tid p rest with
        | some rest' => some (b :: rest')
        | none => none
def updateInChildren (tid : String) (p : PartialBlock) :
    Block → Option Block
  | .mk i t pr c ch =>
    match updateInForest tid p ch with
    | some ch' => some (.mk i t pr c ch')
    | none => none
end

/-- Modelled from the spec: `updateBlock(target, patch)` (section 4.4):
resolves the target, failing with `BlockNotFound` when absent; replaces
exactly the fields present in the patch and keeps omitted fields (and,
for a type change, the existing Children Group) untouched. -/
def updateBlock (tid : String) (p : PartialBlock) (doc : List Block) :
    Except BNError (List Block) :=
  match updateInForest tid p doc with
  | some d => .ok d
  | none => .error (.blockNotFound tid)

/-- The engine state after a mutation call: the single atomic
transaction either commits the new document or — when the call was
rejected — leaves the state untouched. -/
def applyMutation (doc : List Block) :
    Except BNError (List Block) → List Block
  | .ok d => d
  | .error _ => doc

/-! ## forEachBlock (translated from `BlockNoteEditor.forEachBlock`) -/

/-- Trace of the callback invocations of `traverseBlockArray` inside
`BlockNoteEditor.forEachBlock` (BlockNoteEditor.ts, lines 315-344): each
block of the array is passed to the callback, a `false` result aborting
the whole traversal; otherwise the block's children — reversed when
`reverse` is set — are traversed, then the remaining siblings.  Returns
the visited blocks in call order together with the boolean
`traverseBlockArray` returns (`false` when the traversal was aborted). -/
def traverseBlockArray (cb : Block → Bool) (reverse : Bool) :
    List Block → List Block × Bool
  | [] => ([], true)
  | b :: rest =>
    if cb b then
      match traverseBlockArray cb reverse
          (if reverse then b.children.reverse else b.children) with
      | (v, true) =>
        match traverseBlockArray cb reverse rest with
        | (v2, ok2) => (b :: (v ++ v2), ok2)
      | (v, false) => (b :: v, false)
    else ([b], false)
  termination_by l => forestSize l
  decreasing_by
  · have happ : ∀ a c : List Block,
        forestSize (a ++ c) = forestSize a + forestSize c := by
      intro a c
      induction a with
      | nil => simp [forestSize]
      | cons x xs ih => simp [forestSize, ih]; omega
    have hrev : ∀ l : List Block, forestSize l.reverse = forestSize l := by
      intro l
      induction l with
      | nil => rfl
      | cons x xs ih =>
        rw [List.reverse_cons, happ]
        simp [forestSize]
        omega
    rcases b with ⟨i, t, p, c, ch⟩
    simp only [Block.children]
    by_cases hr : reverse = true <;>
      simp [hr, hrev, forestSize, blockSize] <;> omega
  · rcases b with ⟨_, _, _, _, ch⟩
    simp [forestSize, blockSize]

/-- The visit trace of `forEachBlock(callback, reverse)` (BlockNoteEditor.ts,
lines 315-344): the top-level blocks are copied, reversed when `reverse`
is set, and handed to `traverseBlockArray`. -/
def forEachBlock (cb : Block → Bool) (reverse : Bool)
    (tops : List Block) : List Block :=
  (traverseBlockArray cb reverse
    (if reverse then tops.reverse else tops)).1

/-- Depth-first order of a forest: each block before its own children,
children before the later siblings; `reverse` reverses the sibling order
at every nesting level (parents still before children). -/
def dfsOrder (reverse : Bool) : List Block → List Block
  | [] => []
  | b :: rest =>
    b :: (dfsOrder reverse
        (if reverse then b.children.reverse else b.children) ++
      dfsOrder reverse rest)
  termination_by l => forestSize l
  decreasing_by
  · have happ : ∀ a c : List Block,
        forestSize (a ++ c) = forestSize a + forestSize c := by
      intro a c
      induction a with
      | nil => simp [forestSize]
      | cons x xs ih => simp [forestSize, ih]; omega
    have hrev : ∀ l : List Block, forestSize l.reverse = forestSize l := by
      intro l
      induction l with
      | nil => rfl
      | cons x xs ih =>
        rw [List.reverse_cons, happ]
        simp [forestSize]
        omega
    rcases b with ⟨i, t, p, c, ch⟩
    simp only [Block.children]
    by_cases hr : reverse = true <;>
      simp [hr, hrev, forestSize, blockSize] <;> omega
  · rcases b with ⟨_, _, _, _, ch⟩
    simp [forestSize, blockSize]

/-- The whole document's depth-first visit order for a given direction:
sibling order reversed at the top level as well when `reverse` is set. -/
def documentDfs (reverse : Bool) (tops : List Block) : List Block :=
  dfsOrder reverse (if reverse then tops.reverse else tops)

/-- Prefix of a list up to and including the first element the callback
rejects. -/
def takeThrough (cb : Block → Bool) : List Block → List Block
  | [] => []
  | b :: rest => if cb b then b :: takeThrough cb rest else [b]

/-! ## Concrete documents used by counterexamples and witnesses -/

/-- A paragraph Content Node with the given text. -/
def paraNode (s : String) : FNode :=
  .node "paragraph" [] [.text s []]

/-- A childless Block Frame with the given id and a one-character
paragraph. -/
def frameNode (i : String) : FNode :=
  .node "blockContainer" [("id", i)] [paraNode "x"]

/-- A two-block flat document. -/
def twoBlockDoc : FNode :=
  .node "doc" [] [.node "blockGroup" [] [frameNode "a", frameNode "b"]]

/-- A document whose single top-level Block Frame has a Children Group
holding exactly three Block Frames with the given ids.  Positions:
the outer frame spans 1-22, its Children Group 6-21, the three inner
frames 6-10, 11-15 and 16-20, with first in-paragraph positions 8, 13
and 18. -/
def threeSiblingDoc (i0 i1 i2 i3 : String) : FNode :=
  .node "doc" [] [.node "blockGroup" [] [
    .node "blockContainer" [("id", i0)] [paraNode "x",
      .node "blockGroup" [] [frameNode i1, frameNode i2, frameNode i3]]]]

/-- A block whose inline content has two adjacent runs with the same
(empty) style set. -/
def cexBlock : Block :=
  .mk "i" "paragraph" [] [⟨"a", []⟩, ⟨"b", []⟩] []

/-- A one-block document whose block has a prop, inline content and one
nested child (used as the C8 witness input). -/
def sampleDoc : List Block :=
  [Block.mk "a" "paragraph" [("textColor", "red")] [⟨"hello", []⟩]
    [Block.mk "b" "paragraph" [] [] []]]

/-- A patch that only changes the block type. -/
def typePatch : PartialBlock := ⟨none, some "heading", none, none, none⟩


/-- A two-frame document with identity tags (all tags distinct), used as
the C7 witness input. -/
def cacheDoc : INode :=
  .node 0 "doc" [] [.node 1 "blockGroup" [] [
    .node 2 "blockContainer" [("id", "a")]
      [.node 4 "paragraph" [] [.text "x" []]],
    .node 3 "blockContainer" [("id", "b")]
      [.node 5 "paragraph" [] [.text "x" []]]]]


/-! # Theorems -/

/-- C10: for every editor state and every text argument, `createLink`
with `url = ""` returns immediately without dispatching any transaction
(no transaction value is produced), so the document state and selection
are left completely unchanged. -/
theorem createLink_empty_url_no_dispatch (text? : Option String)
    (st : LinkEditorState) :
    createLink "" text? st = none ∧
      applyLinkResult st (createLink "" text? st) = st := by
  constructor <;> simp [createLink, applyLinkResult]

/-- C5: in a Children Group with exactly three Block Frames (ids `i1`,
`i2`, `i3`), resolving the text cursor inside the middle frame (position
13) reports the first frame as previous block and the third as next;
inside the first frame (position 8) no previous block is reported, and
inside the third (position 18) no next block.  The sibling frames are
computed through the source's fixed offsets (`startPos - 2`,
`endPos + 2`). -/
theorem sibling_navigation (i0 i1 i2 i3 : String) :
    getTextCursorPosition ["paragraph"] (threeSiblingDoc i0 i1 i2 i3) 13 =
      .ok ⟨.mk i2 "paragraph" [] [⟨"x", []⟩] [],
           some (.mk i1 "paragraph" [] [⟨"x", []⟩] []),
           some (.mk i3 "paragraph" [] [⟨"x", []⟩] [])⟩ ∧
    getTextCursorPosition ["paragraph"] (threeSiblingDoc i0 i1 i2 i3) 8 =
      .ok ⟨.mk i1 "paragraph" [] [⟨"x", []⟩] [],
           none,
           some (.mk i2 "paragraph" [] [⟨"x", []⟩] [])⟩ ∧
    getTextCursorPosition ["paragraph"] (threeSiblingDoc i0 i1 i2 i3) 18 =
      .ok ⟨.mk i3 "paragraph" [] [⟨"x", []⟩] [],
           some (.mk i2 "paragraph" [] [⟨"x", []⟩] []),
           none⟩ :=
  ⟨rfl, rfl, rfl⟩

/-- C4 counterexample: position 6 of the two-block document lies at the
boundary between the two Block Frames, so position resolution is absent;
`getTextCursorPosition`, as written in the source (non-null assertion on
`getBlockInfoFromPos`), raises there instead of returning an absent
result — refuting the claim that every public cursor read returns an
absent result rather than raising. -/
theorem getTextCursorPosition_raises_on_absent_context :
    getBlockInfoFromPos twoBlockDoc 6 = none ∧
    getTextCursorPosition ["paragraph"] twoBlockDoc 6 =
      .error .typeError :=
  ⟨rfl, rfl⟩

/-- C4 amended: when position resolution finds no enclosing Block Frame,
`getMouseCursorPosition` returns an absent result rather than raising
(likewise when the coordinate lookup itself fails), but
`getTextCursorPosition` asserts a successful resolution and raises. -/
theorem cursor_queries_on_absent_context (schema : List String)
    (doc : FNode) (pos : Nat)
    (h : getBlockInfoFromPos doc pos = none) :
    getMouseCursorPosition schema doc (some pos) = .ok none ∧
    getMouseCursorPosition schema doc none = .ok none ∧
    getTextCursorPosition schema doc pos = .error .typeError := by
  refine ⟨?_, rfl, ?_⟩ <;> simp [getMouseCursorPosition,
    getTextCursorPosition, h]

/-- Witness for the C4 amended theorem at the two-block document and the
between-frames position 6. -/
theorem cursor_queries_on_absent_context_witness :
    getMouseCursorPosition ["paragraph"] twoBlockDoc (some 6) = .ok none ∧
    getMouseCursorPosition ["paragraph"] twoBlockDoc none = .ok none ∧
    getTextCursorPosition ["paragraph"] twoBlockDoc 6 =
      .error .typeError :=
  cursor_queries_on_absent_context ["paragraph"] twoBlockDoc 6 rfl

/-- When some target is missing, resolving the target list reports a
missing id (the first one in target order). -/
theorem firstMissing_of_missing (doc : List Block) :
    ∀ targets : List String,
      (∃ t ∈ targets, findInForest t doc = none) →
      ∃ t ∈ targets, findInForest t doc = none ∧
        firstMissing doc targets = some t := by
  intro targets
  induction targets with
  | nil => intro h; simp at h
  | cons t rest ih =>
    intro h
    cases hf : findInForest t doc with
    | none => exact ⟨t, by simp, hf, by simp [firstMissing, hf]⟩
    | some b =>
      obtain ⟨x, hx, hxn⟩ := h
      rcases List.mem_cons.mp hx with hx | hx
      · subst hx
        rw [hf] at hxn
        exact absurd hxn (by simp)
      · obtain ⟨y, hy, hyn, hym⟩ := ih ⟨x, hx, hxn⟩
        exact ⟨y, List.mem_cons_of_mem _ hy, hyn,
          by simp [firstMissing, hf, hym]⟩

/-- C1: whenever at least one target id does not resolve, `removeBlocks`
fails with `BlockNotFound` naming a missing id and, the transaction being
rejected as a whole, the document is left completely unchanged — no
target, resolvable or not, is removed. -/
theorem removeBlocks_atomic (doc : List Block) (targets : List String)
    (h : ∃ t ∈ targets, findInForest t doc = none) :
    ∃ t ∈ targets, findInForest t doc = none ∧
      removeBlocks targets doc = .error (.blockNotFound t) ∧
      applyMutation doc (removeBlocks targets doc) = doc := by
  obtain ⟨t, ht, hn, hm⟩ := firstMissing_of_missing doc targets h
  exact ⟨t, ht, hn, by simp [removeBlocks, hm],
    by simp [removeBlocks, hm, applyMutation]⟩

/-- Witness for C1: a document holding only block `a`;
`removeBlocks(["a", "b"])` rejects naming `b` and removes neither. -/
theorem removeBlocks_atomic_witness :
    ∃ t ∈ ["a", "b"],
      findInForest t [Block.mk "a" "paragraph" [] [] []] = none ∧
      removeBlocks ["a", "b"] [Block.mk "a" "paragraph" [] [] []] =
        .error (.blockNotFound t) ∧
      applyMutation [Block.mk "a" "paragraph" [] [] []]
        (removeBlocks ["a", "b"] [Block.mk "a" "paragraph" [] [] []]) =
        [Block.mk "a" "paragraph" [] [] []] :=
  removeBlocks_atomic _ _ ⟨"b", by simp, rfl⟩

/-- C3: in a document `[A, B]` with no children, inserting `[X]` relative
to `B` yields `[A, X, B]` (before), `[A, B, X]` (after), or makes `X`
the first child of `B` (nested); an unresolvable reference id makes the
call fail with `BlockNotFound` and leaves the document unchanged. -/
theorem insertBlocks_placement (A B X : Block)
    (hid : A.id ≠ B.id) (hA : A.children = []) (hB : B.children = []) :
    insertBlocks [X] B.id .before [A, B] = .ok [A, X, B] ∧
    insertBlocks [X] B.id .after [A, B] = .ok [A, B, X] ∧
    insertBlocks [X] B.id .nested [A, B] = .ok [A, B.setChildren [X]] ∧
    (∀ badId, findInForest badId [A, B] = none → ∀ p : Placement,
      insertBlocks [X] badId p [A, B] = .error (.blockNotFound badId) ∧
      applyMutation [A, B] (insertBlocks [X] badId p [A, B]) = [A, B]) := by
  rcases A with ⟨ai, at', ap, ac, ach⟩
  rcases B with ⟨bi, bt, bp, bc, bch⟩
  simp only [Block.id, Block.children] at hid hA hB
  subst hA hB
  refine ⟨?_, ?_, ?_, ?_⟩
  · simp [insertBlocks, insertInForest, insertInChildren, Block.id, hid]
  · simp [insertBlocks, insertInForest, insertInChildren, Block.id, hid]
  · simp [insertBlocks, insertInForest, insertInChildren, Block.id,
      Block.children, Block.setChildren, hid]
  · intro badId hbad p
    have h1 : ai ≠ badId := by
      intro he
      subst he
      simp [findInForest, findInBlock] at hbad
    have h2 : bi ≠ badId := by
      intro he
      subst he
      simp [findInForest, findInBlock, h1] at hbad
    constructor
    · simp [insertBlocks, insertInForest, insertInChildren, Block.id,
        h1, h2]
    · simp [insertBlocks, insertInForest, insertInChildren, Block.id,
        h1, h2, applyMutation]

/-- Witness for C3 at concrete blocks `a`, `b`, `x`. -/
theorem insertBlocks_placement_witness :
    insertBlocks [Block.mk "x" "paragraph" [] [] []] "b" .before
        [Block.mk "a" "paragraph" [] [] [],
         Block.mk "b" "paragraph" [] [] []] =
      .ok [Block.mk "a" "paragraph" [] [] [],
           Block.mk "x" "paragraph" [] [] [],
           Block.mk "b" "paragraph" [] [] []] ∧
    insertBlocks [Block.mk "x" "paragraph" [] [] []] "b" .after
        [Block.mk "a" "paragraph" [] [] [],
         Block.mk "b" "paragraph" [] [] []] =
      .ok [Block.mk "a" "paragraph" [] [] [],
           Block.mk "b" "paragraph" [] [] [],
           Block.mk "x" "paragraph" [] [] []] ∧
    insertBlocks [Block.mk "x" "paragraph" [] [] []] "b" .nested
        [Block.mk "a" "paragraph" [] [] [],
         Block.mk "b" "paragraph" [] [] []] =
      .ok [Block.mk "a" "paragraph" [] [] [],
           (Block.mk "b" "paragraph" [] [] []).setChildren
             [Block.mk "x" "paragraph" [] [] []]] ∧
    (∀ badId,
      findInForest badId
          [Block.mk "a" "paragraph" [] [] [],
           Block.mk "b" "paragraph" [] [] []] = none → ∀ p : Placement,
      insertBlocks [Block.mk "x" "paragraph" [] [] []] badId p
          [Block.mk "a" "paragraph" [] [] [],
           Block.mk "b" "paragraph" [] [] []] =
        .error (.blockNotFound badId) ∧
      applyMutation
          [Block.mk "a" "paragraph" [] [] [],
           Block.mk "b" "paragraph" [] [] []]
          (insertBlocks [Block.mk "x" "paragraph" [] [] []] badId p
            [Block.mk "a" "paragraph" [] [] [],
             Block.mk "b" "paragraph" [] [] []]) =
        [Block.mk "a" "paragraph" [] [] [],
         Block.mk "b" "paragraph" [] [] []]) :=
  insertBlocks_placement (Block.mk "a" "paragraph" [] [] [])
    (Block.mk "b" "paragraph" [] [] [])
    (Block.mk "x" "paragraph" [] [] []) (by simp [Block.id]) rfl rfl

/-- C2: in a document `[A, B, C]`, replacing the non-contiguous targets
`[A, C]` by `[X]` inserts `[X]` at `A`'s original position and then
removes both targets, yielding `[X, B]` — not `[B, X]`. -/
theorem replaceBlocks_noncontiguous (A B C X : Block)
    (hAB : A.id ≠ B.id) (hAC : A.id ≠ C.id) (hBC : B.id ≠ C.id)
    (hXA : X.id ≠ A.id) (hXC : X.id ≠ C.id)
    (hA : A.children = []) (hB : B.children = []) (hC : C.children = [])
    (hX : X.children = []) :
    replaceBlocks [A.id, C.id] [X] [A, B, C] = .ok [X, B] := by
  rcases A with ⟨ai, at', ap, ac, ach⟩
  rcases B with ⟨bi, bt, bp, bc, bch⟩
  rcases C with ⟨ci, ct, cp, cc, cch⟩
  rcases X with ⟨xi, xt, xp, xc, xch⟩
  simp only [Block.id, Block.children] at hAB hAC hBC hXA hXC hA hB hC hX
  subst hA hB hC hX
  simp [replaceBlocks, firstMissing, findInForest, findInBlock,
    insertInForest, insertInChildren, removeFromForest, removeFromBlock,
    Block.id, hAB, hAC, hBC, hXA, hXC, Ne.symm hAB, Ne.symm hAC,
    Ne.symm hBC]

/-- Witness for C2 at concrete blocks `a`, `b`, `c`, `x`. -/
theorem replaceBlocks_noncontiguous_witness :
    replaceBlocks [(Block.mk "a" "paragraph" [] [] []).id,
        (Block.mk "c" "paragraph" [] [] []).id]
        [Block.mk "x" "paragraph" [] [] []]
        [Block.mk "a" "paragraph" [] [] [],
         Block.mk "b" "paragraph" [] [] [],
         Block.mk "c" "paragraph" [] [] []] =
      .ok [Block.mk "x" "paragraph" [] [] [],
           Block.mk "b" "paragraph" [] [] []] :=
  replaceBlocks_noncontiguous
    (Block.mk "a" "paragraph" [] [] []) (Block.mk "b" "paragraph" [] [] [])
    (Block.mk "c" "paragraph" [] [] []) (Block.mk "x" "paragraph" [] [] [])
    (by simp [Block.id]) (by simp [Block.id]) (by simp [Block.id])
    (by simp [Block.id]) (by simp [Block.id]) rfl rfl rfl rfl

/-- `forestSize` distributes over append. -/
theorem forestSize_append (a c : List Block) :
    forestSize (a ++ c) = forestSize a + forestSize c := by
  induction a with
  | nil => simp [forestSize]
  | cons x xs ih => simp [forestSize, ih]; omega

/-- `forestSize` is invariant under reversal. -/
theorem forestSize_reverse (l : List Block) :
    forestSize l.reverse = forestSize l := by
  induction l with
  | nil => rfl
  | cons x xs ih =>
    rw [List.reverse_cons, forestSize_append]
    simp [forestSize]
    omega

/-- A list all of whose elements pass the callback is kept whole by
`takeThrough`. -/
theorem takeThrough_of_all (cb : Block → Bool) (l : List Block)
    (h : l.all cb = true) : takeThrough cb l = l := by
  induction l with
  | nil => rfl
  | cons b rest ih =>
    rw [List.all_cons, Bool.and_eq_true] at h
    simp [takeThrough, h.1, ih h.2]

theorem takeThrough_append (cb : Block → Bool) (xs ys : List Block) :
    takeThrough cb (xs ++ ys) =
      if xs.all cb = true then xs ++ takeThrough cb ys
      else takeThrough cb xs := by
  induction xs with
  | nil => simp [takeThrough]
  | cons b rest ih =>
    rw [List.cons_append]
    cases hb : cb b with
    | true =>
      cases hr : rest.all cb with
      | true =>
        rw [if_pos (by rw [List.all_cons, hb, hr]; rfl)]
        simp only [takeThrough, hb, if_true]
        rw [ih, if_pos hr, List.cons_append]
      | false =>
        rw [if_neg (by rw [List.all_cons, hb, hr]; simp)]
        simp only [takeThrough, hb, if_true]
        rw [ih, if_neg (by simp [hr])]
    | false =>
      rw [if_neg (by rw [List.all_cons, hb]; simp)]
      simp [takeThrough, hb]

theorem traverseBlockArray_eq (cb : Block → Bool) (reverse : Bool) :
    ∀ l : List Block,
      traverseBlockArray cb reverse l =
        (takeThrough cb (dfsOrder reverse l),
          (dfsOrder reverse l).all cb) := by
  have key : ∀ n, ∀ l : List Block, forestSize l ≤ n →
      traverseBlockArray cb reverse l =
        (takeThrough cb (dfsOrder reverse l),
          (dfsOrder reverse l).all cb) := by
    intro n
    induction n with
    | zero =>
      intro l hl
      cases l with
      | nil => simp [traverseBlockArray, dfsOrder, takeThrough]
      | cons b rest =>
        rcases b with ⟨i, t, p, c, ch⟩
        simp [forestSize, blockSize] at hl
    | succ n ih =>
      intro l hl
      cases l with
      | nil => simp [traverseBlockArray, dfsOrder, takeThrough]
      | cons b rest =>
        have hbsz : blockSize b = 1 + forestSize b.children := by
          rcases b with ⟨i, t, p, c, ch⟩
          simp [blockSize, Block.children]
        have hsz : forestSize (b :: rest) =
            blockSize b + forestSize rest := by
          simp [forestSize]
        have hkids : forestSize
            (if reverse then b.children.reverse else b.children) ≤ n := by
          by_cases hr : reverse = true <;>
            simp [hr, forestSize_reverse] <;> omega
        have hrest : forestSize rest ≤ n := by omega
        have e1 := ih _ hkids
        have e2 := ih _ hrest
        rw [traverseBlockArray, dfsOrder]
        generalize hK : (if reverse = true then b.children.reverse
          else b.children) = K at e1 ⊢
        by_cases hcb : cb b = true
        · rw [e1, e2, if_pos hcb]
          cases hall : (dfsOrder reverse K).all cb with
          | true =>
            rw [takeThrough_of_all cb _ hall]
            show (b :: (dfsOrder reverse K ++
                takeThrough cb (dfsOrder reverse rest)),
              (dfsOrder reverse rest).all cb) = _
            rw [Prod.mk.injEq]
            constructor
            · rw [show takeThrough cb (b :: (dfsOrder reverse K ++
                  dfsOrder reverse rest)) = b :: takeThrough cb
                  (dfsOrder reverse K ++ dfsOrder reverse rest) from by
                simp [takeThrough, hcb]]
              rw [takeThrough_append, if_pos hall]
            · rw [List.all_cons, List.all_append, hcb, hall]
              simp
          | false =>
            show (b :: takeThrough cb (dfsOrder reverse K), false) = _
            rw [Prod.mk.injEq]
            constructor
            · rw [show takeThrough cb (b :: (dfsOrder reverse K ++
                  dfsOrder reverse rest)) = b :: takeThrough cb
                  (dfsOrder reverse K ++ dfsOrder reverse rest) from by
                simp [takeThrough, hcb]]
              rw [takeThrough_append, if_neg (by rw [hall]; simp)]
            · rw [List.all_cons, List.all_append, hcb, hall]
              simp
        · simp only [Bool.not_eq_true] at hcb
          rw [if_neg (by rw [hcb]; simp)]
          rw [Prod.mk.injEq]
          constructor
          · rw [show takeThrough cb (b :: (dfsOrder reverse K ++
                dfsOrder reverse rest)) = [b] from by
              simp [takeThrough, hcb]]
          · rw [List.all_cons, hcb]
            simp
  intro l
  exact key (forestSize l) l le_rfl

/-- C9: `forEachBlock` visits blocks depth-first, every parent before
its children (`documentDfs` lists each block before its children's
blocks and before later siblings); the visit trace is the depth-first
prefix up to and including the first block on which the callback
returns `false`, so nothing after that block — descendants, later
siblings or later top-level blocks — is visited; with `reverse` set the
sibling order is reversed at every nesting level while parents still
precede their children. -/
theorem forEachBlock_spec (cb : Block → Bool) (reverse : Bool)
    (tops : List Block) :
    forEachBlock cb reverse tops =
      takeThrough cb (documentDfs reverse tops) := by
  simp [forEachBlock, documentDfs, traverseBlockArray_eq]

/-- Resolving and patching agree: a missing target leaves nothing to
update; a resolved target is replaced, at its place, by its patched
version (first depth-first match; patches that do not change the id). -/
theorem updateInForest_correct (tid : String) (p : PartialBlock)
    (hpid : p.id = none) :
    ∀ n, ∀ f : List Block, forestSize f ≤ n →
      (findInForest tid f = none → updateInForest tid p f = none) ∧
      (∀ old, findInForest tid f = some old →
        ∃ f', updateInForest tid p f = some f' ∧
          findInForest tid f' = some (mergeBlock old p)) := by
  intro n
  induction n with
  | zero =>
    intro f hf
    cases f with
    | nil =>
      exact ⟨fun _ => rfl, fun old h => by simp [findInForest] at h⟩
    | cons b rest =>
      rcases b with ⟨bi, bt, bp, bc, bch⟩
      simp [forestSize, blockSize] at hf
  | succ n ih =>
    intro f hf
    cases f with
    | nil =>
      exact ⟨fun _ => rfl, fun old h => by simp [findInForest] at h⟩
    | cons b rest =>
      rcases b with ⟨bi, bt, bp, bc, bch⟩
      have hsz : forestSize (Block.mk bi bt bp bc bch :: rest) =
          1 + forestSize bch + forestSize rest := by
        simp [forestSize, blockSize]
      have hch : forestSize bch ≤ n := by omega
      have hrest : forestSize rest ≤ n := by omega
      by_cases hid : bi = tid
      · subst hid
        constructor
        · intro hnone
          simp [findInForest, findInBlock] at hnone
        · intro old hold
          have hold' : old = Block.mk bi bt bp bc bch := by
            simp [findInForest, findInBlock] at hold
            exact hold.symm
          subst hold'
          refine ⟨mergeBlock (Block.mk bi bt bp bc bch) p :: rest,
            by simp [updateInForest, Block.id], ?_⟩
          have hmid : (mergeBlock (Block.mk bi bt bp bc bch) p).id = bi := by
            simp [mergeBlock, Block.id, hpid]
          cases hm : mergeBlock (Block.mk bi bt bp bc bch) p with
          | mk mi mt mp mc mch =>
            rw [hm] at hmid
            simp [Block.id] at hmid
            subst hmid
            simp [findInForest, findInBlock]
      · constructor
        · intro hnone
          simp only [findInForest, findInBlock] at hnone
          rw [if_neg hid] at hnone
          -- hnone : match (findInForest tid bch) ... = none
          cases hfc : findInForest tid bch with
          | some r => rw [hfc] at hnone; simp at hnone
          | none =>
            rw [hfc] at hnone
            simp only at hnone
            -- hnone : findInForest tid rest = none
            have h1 := ((ih bch hch).1) hfc
            have h2 := ((ih rest hrest).1) hnone
            simp only [updateInForest, updateInChildren, Block.id]
            rw [if_neg hid, h1, h2]
        · intro old hold
          simp only [findInForest, findInBlock] at hold
          rw [if_neg hid] at hold
          cases hfc : findInForest tid bch with
          | some r =>
            rw [hfc] at hold
            simp only [Option.some.injEq] at hold
            subst hold
            obtain ⟨ch', hch1, hch2⟩ := ((ih bch hch).2) r hfc
            refine ⟨Block.mk bi bt bp bc ch' :: rest, ?_, ?_⟩
            · simp only [updateInForest, updateInChildren, Block.id]
              rw [if_neg hid, hch1]
            · simp only [findInForest, findInBlock]
              rw [if_neg hid, hch2]
          | none =>
            rw [hfc] at hold
            simp only at hold
            -- hold : findInForest tid rest = some old
            obtain ⟨rest', hr1, hr2⟩ := ((ih rest hrest).2) old hold
            have h1 := ((ih bch hch).1) hfc
            refine ⟨Block.mk bi bt bp bc bch :: rest', ?_, ?_⟩
            · simp only [updateInForest, updateInChildren, Block.id]
              rw [if_neg hid, h1, hr1]
            · simp only [findInForest, findInBlock]
              rw [if_neg hid, hfc, hr2]

/-- C8: `updateBlock` changes only the fields present in the patch —
every omitted field (type, props, content, children) keeps the existing
block's value byte-identical, and in particular a patch that changes
`type` but carries no `children` leaves the existing Children Group
untouched; an unresolvable target makes the call fail with
`BlockNotFound` and changes nothing. -/
theorem updateBlock_spec (doc : List Block) (tid : String)
    (p : PartialBlock) (hpid : p.id = none) :
    (findInForest tid doc = none →
      updateBlock tid p doc = .error (.blockNotFound tid) ∧
      applyMutation doc (updateBlock tid p doc) = doc) ∧
    (∀ old, findInForest tid doc = some old →
      ∃ doc', updateBlock tid p doc = .ok doc' ∧
        findInForest tid doc' = some (mergeBlock old p) ∧
        (mergeBlock old p).id = old.id ∧
        (p.type = none → (mergeBlock old p).type = old.type) ∧
        (p.props = none → (mergeBlock old p).props = old.props) ∧
        (p.content = none → (mergeBlock old p).content = old.content) ∧
        (p.children = none → (mergeBlock old p).children = old.children)) := by
  have key := updateInForest_correct tid p hpid (forestSize doc) doc le_rfl
  constructor
  · intro hn
    have h := key.1 hn
    constructor <;> simp [updateBlock, h, applyMutation]
  · intro old hold
    obtain ⟨doc', h1, h2⟩ := key.2 old hold
    rcases old with ⟨oi, ot, op, oc, och⟩
    refine ⟨doc', by simp [updateBlock, h1], h2, ?_, ?_, ?_, ?_, ?_⟩
    · simp [mergeBlock, Block.id, hpid]
    · intro h
      simp [mergeBlock, Block.type, h]
    · intro h
      simp [mergeBlock, Block.props, h]
    · intro h
      simp [mergeBlock, Block.content, h]
    · intro h
      simp [mergeBlock, Block.children, h]

/-- Witness for C8: a type-only patch applied to a one-block document
with a nested child. -/
theorem updateBlock_spec_witness :
    (findInForest "a" sampleDoc = none →
      updateBlock "a" typePatch sampleDoc = .error (.blockNotFound "a") ∧
      applyMutation sampleDoc (updateBlock "a" typePatch sampleDoc) =
        sampleDoc) ∧
    (∀ old, findInForest "a" sampleDoc = some old →
      ∃ doc', updateBlock "a" typePatch sampleDoc = .ok doc' ∧
        findInForest "a" doc' = some (mergeBlock old typePatch) ∧
        (mergeBlock old typePatch).id = old.id ∧
        (typePatch.type = none →
          (mergeBlock old typePatch).type = old.type) ∧
        (typePatch.props = none →
          (mergeBlock old typePatch).props = old.props) ∧
        (typePatch.content = none →
          (mergeBlock old typePatch).content = old.content) ∧
        (typePatch.children = none →
          (mergeBlock old typePatch).children = old.children)) :=
  updateBlock_spec sampleDoc "a" typePatch rfl

/-- Reading back serialized inline runs recovers them exactly when no
two adjacent runs carry the same style set (a run boundary occurs only
at a change of the active mark set). -/
theorem inlineToRuns_map (content : List InlineRun)
    (h : runsNormalized content = true) :
    inlineToRuns (content.map (fun r => FNode.text r.text r.styles)) =
      content := by
  induction content with
  | nil => rfl
  | cons r rest ih =>
    cases rest with
    | nil => simp [inlineToRuns, addRun]
    | cons r2 rest2 =>
      rw [runsNormalized, Bool.and_eq_true, Bool.not_eq_true',
        beq_eq_false_iff_ne] at h
      obtain ⟨hne, hrest⟩ := h
      have ih2 := ih hrest
      simp only [List.map_cons, inlineToRuns] at ih2 ⊢
      rw [ih2]
      simp [addRun, Ne.symm hne]

/-- Round trip by strong induction on the tree size: serialization
followed by conversion is the identity on well-formed blocks and
forests. -/
theorem roundtrip_aux (schema : List String) :
    ∀ n, (∀ b : Block, blockSize b ≤ n → blockWF schema b = true →
        nodeToBlock schema (blockToNode b) = .ok b) ∧
      (∀ l : List Block, forestSize l ≤ n → forestWF schema l = true →
        nodesToBlocks schema (blocksToNodes l) = .ok l) := by
  intro n
  induction n with
  | zero =>
    refine ⟨?_, ?_⟩
    · intro b hb hwf
      rcases b with ⟨i, t, p, c, ch⟩
      simp [blockSize] at hb
    · intro l hl hwf
      cases l with
      | nil => rfl
      | cons b rest =>
        rcases b with ⟨i, t, p, c, ch⟩
        simp [forestSize, blockSize] at hl
  | succ n ih =>
    have hB : ∀ b : Block, blockSize b ≤ n + 1 → blockWF schema b = true →
        nodeToBlock schema (blockToNode b) = .ok b := by
      intro b hb hwf
      rcases b with ⟨i, ty, pr, content, children⟩
      rw [blockWF, Bool.and_eq_true, Bool.and_eq_true] at hwf
      obtain ⟨⟨hty, hnorm⟩, hch⟩ := hwf
      rw [decide_eq_true_eq] at hty
      have hchsz : forestSize children ≤ n := by
        simp [blockSize] at hb
        omega
      cases children with
      | nil =>
        simp [blockToNode, nodeToBlock, hty, inlineToRuns_map content hnorm]
      | cons c cs =>
        have hrec := ih.2 (c :: cs) hchsz hch
        simp [blockToNode, nodeToBlock, hty,
          inlineToRuns_map content hnorm, hrec]
        rfl
    refine ⟨hB, ?_⟩
    intro l
    induction l with
    | nil => intro _ _; rfl
    | cons b rest ihl =>
      intro hl hwf
      have h1 : blockSize b ≤ n + 1 := by
        simp [forestSize] at hl
        omega
      have h2 : forestSize rest ≤ n + 1 := by
        simp [forestSize] at hl
        omega
      rw [forestWF, Bool.and_eq_true] at hwf
      obtain ⟨hwb, hwr⟩ := hwf
      simp [blocksToNodes, nodesToBlocks, hB b h1 hwb, ihl h2 hwr]
      rfl

/-- C6 amended: for every block tree built only from registered block
types whose inline content is normalized (no two adjacent runs with the
same style set, recursively), converting the serialized fragment back
yields a structurally equal block: `toBlock (fragmentFrom b) = ok b`. -/
theorem roundtrip_normalized (schema : List String) (b : Block)
    (h : blockWF schema b = true) :
    nodeToBlock schema (blockToNode b) = .ok b :=
  (roundtrip_aux schema (blockSize b)).1 b le_rfl h

/-- Witness for the C6 amended theorem: a styled two-run block with a
nested child round-trips exactly. -/
theorem roundtrip_normalized_witness :
    blockWF ["paragraph"] (Block.mk "p" "paragraph" [("textColor", "red")]
      [⟨"a", []⟩, ⟨"b", ["bold"]⟩]
      [Block.mk "q" "paragraph" [] [⟨"c", []⟩] []]) = true ∧
    nodeToBlock ["paragraph"] (blockToNode
      (Block.mk "p" "paragraph" [("textColor", "red")]
        [⟨"a", []⟩, ⟨"b", ["bold"]⟩]
        [Block.mk "q" "paragraph" [] [⟨"c", []⟩] []])) =
      .ok (Block.mk "p" "paragraph" [("textColor", "red")]
        [⟨"a", []⟩, ⟨"b", ["bold"]⟩]
        [Block.mk "q" "paragraph" [] [⟨"c", []⟩] []]) :=
  ⟨rfl, roundtrip_normalized ["paragraph"] _ rfl⟩

/-- C6 counterexample: a block of a registered type whose content holds
two adjacent runs with the same style set does not round-trip — the
converter merges the two runs (a run boundary occurs only at a change of
the active mark set), so `toBlock (fragmentFrom b) ≠ ok b` as the claim
would require for every tree over the registered schema. -/
theorem roundtrip_counterexample :
    nodeToBlock ["paragraph"] (blockToNode cexBlock) =
      .ok (Block.mk "i" "paragraph" [] [⟨"ab", []⟩] []) ∧
    cexBlock.type ∈ ["paragraph"] ∧
    nodeToBlock ["paragraph"] (blockToNode cexBlock) ≠ .ok cexBlock := by
  refine ⟨rfl, by simp [cexBlock, Block.type], ?_⟩
  intro h
  have h' : Except.ok (ε := BNError)
      (Block.mk "i" "paragraph" [] [⟨"ab", []⟩] []) = .ok cexBlock := h
  rw [cexBlock] at h'
  injection h' with h2
  injection h2 with e1 e2 e3 e4 e5
  exact absurd e4 (by decide)

/-- Lookup in an appended cache: the left part wins. -/
theorem cacheGet_append (c d : BlockCache) (k : Nat) :
    cacheGet (c ++ d) k =
      match cacheGet c k with
      | some b => some b
      | none => cacheGet d k := by
  induction c with
  | nil => simp [cacheGet]
  | cons kb rest ih =>
    rcases kb with ⟨k0, b0⟩
    by_cases hk : k0 = k <;> simp [cacheGet, hk, ih]

/-- An existing entry survives any later cache growth. -/
theorem cacheGet_append_left (c d : BlockCache) (k : Nat) (b : Block)
    (h : cacheGet c k = some b) : cacheGet (c ++ d) k = some b := by
  rw [cacheGet_append, h]

/-- A missing key defers to the appended part. -/
theorem cacheGet_append_right (c d : BlockCache) (k : Nat)
    (h : cacheGet c k = none) : cacheGet (c ++ d) k = cacheGet d k := by
  rw [cacheGet_append, h]

/-- A cache fragment without the key yields no entry. -/
theorem cacheGet_of_no_key (d : BlockCache) (k : Nat)
    (h : ∀ kb ∈ d, kb.1 ≠ k) : cacheGet d k = none := by
  induction d with
  | nil => rfl
  | cons kb rest ih =>
    rcases kb with ⟨k0, b0⟩
    have h0 : k0 ≠ k := h (k0, b0) (by simp)
    simp only [cacheGet, h0, if_false]
    exact ih (fun kb hkb => h kb (by simp [hkb]))

/-- Every flat node has positive size. -/
theorem INode.size_pos : ∀ node : INode, 1 ≤ INode.size node := by
  intro node
  cases node with
  | text s m => simp [INode.size]
  | node ident nm attrs ch => simp [INode.size]

/-- Conversion only ever appends to the cache, and every appended entry
is keyed by an identity occurring in the converted subtree. -/
theorem convert_cache_extends (schema : List String) :
    ∀ n,
      (∀ node : INode, INode.size node ≤ n → ∀ c r c',
        convertNode schema node c = (r, c') →
        ∃ d, c' = c ++ d ∧ ∀ kb ∈ d, kb.1 ∈ INode.idents node) ∧
      (∀ ident attrs ch, INode.sizeL ch ≤ n → ∀ c r c',
        convertFrame schema ident attrs ch c = (r, c') →
        ∃ d, c' = c ++ d ∧
          ∀ kb ∈ d, kb.1 = ident ∨ kb.1 ∈ INode.identsL ch) ∧
      (∀ ident attrs ty props inl rest, INode.sizeL rest ≤ n → ∀ c r c',
        convertGroup schema ident attrs ty props inl rest c = (r, c') →
        ∃ d, c' = c ++ d ∧
          ∀ kb ∈ d, kb.1 = ident ∨ kb.1 ∈ INode.identsL rest) ∧
      (∀ l : List INode, INode.sizeL l ≤ n → ∀ c r c',
        convertForest schema l c = (r, c') →
        ∃ d, c' = c ++ d ∧ ∀ kb ∈ d, kb.1 ∈ INode.identsL l) := by
  intro n
  induction n with
  | zero =>
    refine ⟨?_, ?_, ?_, ?_⟩
    · intro node hsz
      have := INode.size_pos node
      omega
    · intro ident attrs ch hsz c r c' h
      cases ch with
      | nil =>
        simp [convertFrame] at h
        exact ⟨[], by simp [h.2], by simp⟩
      | cons cn rest =>
        have := INode.size_pos cn
        simp [INode.sizeL] at hsz
        omega
    · intro ident attrs ty props inl rest hsz c r c' h
      cases rest with
      | nil =>
        simp [convertGroup, cacheSet] at h
        refine ⟨[(ident, mkConverted attrs ty props inl [])], ?_, ?_⟩
        · simp [← h.2]
        · simp
      | cons g tail =>
        have := INode.size_pos g
        simp [INode.sizeL] at hsz
        omega
    · intro l hsz c r c' h
      cases l with
      | nil =>
        simp [convertForest] at h
        exact ⟨[], by simp [h.2], by simp⟩
      | cons n0 rest =>
        have := INode.size_pos n0
        simp [INode.sizeL] at hsz
        omega
  | succ n ih =>
    have hF : ∀ ident attrs ch, INode.sizeL ch ≤ n + 1 → ∀ c r c',
        convertFrame schema ident attrs ch c = (r, c') →
        ∃ d, c' = c ++ d ∧
          ∀ kb ∈ d, kb.1 = ident ∨ kb.1 ∈ INode.identsL ch := by
      intro ident attrs ch hsz c r c' h
      cases ch with
      | nil =>
        simp [convertFrame] at h
        exact ⟨[], by simp [h.2], by simp⟩
      | cons cn rest =>
        cases cn with
        | text s m =>
          simp [convertFrame] at h
          exact ⟨[], by simp [h.2], by simp⟩
        | node cid cty cprops cinl =>
          rw [convertFrame] at h
          by_cases hty : cty ∈ schema
          · rw [if_pos hty] at h
            have hrsz : INode.sizeL rest ≤ n := by
              simp [INode.sizeL, INode.size] at hsz
              omega
            obtain ⟨d, hd, hdk⟩ :=
              (ih.2.2.1) ident attrs cty cprops cinl rest hrsz c r c' h
            refine ⟨d, hd, ?_⟩
            intro kb hkb
            rcases hdk kb hkb with hk | hk
            · exact Or.inl hk
            · refine Or.inr ?_
              simp [INode.identsL]
              tauto
          · rw [if_neg hty] at h
            simp at h
            exact ⟨[], by simp [h.2], by simp⟩
    have hG : ∀ ident attrs ty props inl rest, INode.sizeL rest ≤ n + 1 →
        ∀ c r c', convertGroup schema ident attrs ty props inl rest c =
          (r, c') →
        ∃ d, c' = c ++ d ∧
          ∀ kb ∈ d, kb.1 = ident ∨ kb.1 ∈ INode.identsL rest := by
      intro ident attrs ty props inl rest hsz c r c' h
      cases rest with
      | nil =>
        simp [convertGroup, cacheSet] at h
        refine ⟨[(ident, mkConverted attrs ty props inl [])], ?_, ?_⟩
        · simp [← h.2]
        · simp
      | cons g tail =>
        cases g with
        | text s m =>
          simp [convertGroup] at h
          exact ⟨[], by simp [h.2], by simp⟩
        | node gid gnm gattrs gch =>
          rw [convertGroup] at h
          have hgsz : INode.sizeL gch ≤ n := by
            simp [INode.sizeL, INode.size] at hsz
            omega
          cases hcf : convertForest schema gch c with
          | mk res ca =>
            obtain ⟨d, hd, hdk⟩ := (ih.2.2.2) gch hgsz c res ca hcf
            have hsub : ∀ k, k ∈ INode.identsL gch →
                k ∈ INode.identsL (INode.node gid gnm gattrs gch :: tail) := by
              intro k hk
              simp [INode.identsL, INode.idents]
              tauto
            rw [hcf] at h
            cases res with
            | error e =>
              simp at h
              refine ⟨d, by simp [← h.2, hd], ?_⟩
              intro kb hkb
              exact Or.inr (hsub kb.1 (hdk kb hkb))
            | ok children =>
              simp [cacheSet] at h
              refine ⟨d ++ [(ident, mkConverted attrs ty props inl
                children)], ?_, ?_⟩
              · rw [← h.2, hd]
                simp
              · intro kb hkb
                rcases List.mem_append.mp hkb with hkb | hkb
                · exact Or.inr (hsub kb.1 (hdk kb hkb))
                · simp at hkb
                  simp [hkb]
    have hN : ∀ node : INode, INode.size node ≤ n + 1 → ∀ c r c',
        convertNode schema node c = (r, c') →
        ∃ d, c' = c ++ d ∧ ∀ kb ∈ d, kb.1 ∈ INode.idents node := by
      intro node hsz c r c' h
      cases node with
      | text s m =>
        simp [convertNode] at h
        exact ⟨[], by simp [h.2], by simp⟩
      | node ident nm attrs ch =>
        rw [convertNode] at h
        cases hg : cacheGet c ident with
        | some b0 =>
          rw [hg] at h
          simp at h
          exact ⟨[], by simp [h.2], by simp⟩
        | none =>
          rw [hg] at h
          simp only at h
          have hchsz : INode.sizeL ch ≤ n + 1 := by
            simp [INode.size] at hsz
            omega
          obtain ⟨d, hd, hdk⟩ := hF ident attrs ch hchsz c r c' h
          refine ⟨d, hd, ?_⟩
          intro kb hkb
          rcases hdk kb hkb with hk | hk <;>
            simp [INode.idents, hk]
    refine ⟨hN, hF, hG, ?_⟩
    intro l hsz c r c' h
    cases l with
    | nil =>
      simp [convertForest] at h
      exact ⟨[], by simp [h.2], by simp⟩
    | cons n0 rest =>
      have hn0 : INode.size n0 ≤ n + 1 := by
        simp [INode.sizeL] at hsz
        omega
      have hrest : INode.sizeL rest ≤ n := by
        have := INode.size_pos n0
        simp [INode.sizeL] at hsz
        omega
      rw [convertForest] at h
      cases hcn : convertNode schema n0 c with
      | mk res ca =>
        rw [hcn] at h
        obtain ⟨d1, hd1, hd1k⟩ := hN n0 hn0 c res ca hcn
        cases res with
        | error e =>
          simp at h
          refine ⟨d1, by simp [← h.2, hd1], ?_⟩
          intro kb hkb
          simp only [INode.identsL, List.mem_append]
          exact Or.inl (hd1k kb hkb)
        | ok b =>
          simp only at h
          cases hcf : convertForest schema rest ca with
          | mk res2 c'' =>
            rw [hcf] at h
            obtain ⟨d2, hd2, hd2k⟩ := (ih.2.2.2) rest hrest ca res2 c'' hcf
            have hcomb : c'' = c ++ (d1 ++ d2) := by
              rw [hd2, hd1, List.append_assoc]
            have hkeys : ∀ kb, kb ∈ d1 ++ d2 →
                kb.1 ∈ INode.identsL (n0 :: rest) := by
              intro kb hkb
              simp only [INode.identsL, List.mem_append]
              rcases List.mem_append.mp hkb with hkb | hkb
              · exact Or.inl (hd1k kb hkb)
              · exact Or.inr (hd2k kb hkb)
            cases res2 with
            | error e =>
              simp at h
              exact ⟨d1 ++ d2, by simp [← h.2, hcomb], hkeys⟩
            | ok bs =>
              simp at h
              exact ⟨d1 ++ d2, by simp [← h.2, hcomb], hkeys⟩

/-- After a successful conversion the frame's own identity maps to the
returned Block (requires the subtree's identity tags to be distinct, the
engine's identity contract). -/
theorem convert_ok_cached (schema : List String) (node : INode)
    (hnd : (INode.idents node).Nodup) (c : BlockCache) (b : Block)
    (c' : BlockCache) (h : convertNode schema node c = (.ok b, c')) :
    cacheGet c' node.ident = some b := by
  cases node with
  | text s m => simp [convertNode] at h
  | node ident nm attrs ch =>
    simp only [INode.ident]
    rw [convertNode] at h
    cases hg : cacheGet c ident with
    | some b0 =>
      rw [hg] at h
      simp at h
      rw [← h.2, hg, h.1]
    | none =>
      rw [hg] at h
      simp only at h
      cases ch with
      | nil => simp [convertFrame] at h
      | cons cn rest =>
        cases cn with
        | text s m => simp [convertFrame] at h
        | node cid cty cprops cinl =>
          rw [convertFrame] at h
          by_cases hty : cty ∈ schema
          · rw [if_pos hty] at h
            have hni : ident ∉ INode.identsL
                (INode.node cid cty cprops cinl :: rest) := by
              rw [INode.idents] at hnd
              exact (List.nodup_cons.mp hnd).1
            cases rest with
            | nil =>
              simp [convertGroup, cacheSet] at h
              rw [← h.2, ← h.1]
              rw [cacheGet_append_right _ _ _ hg]
              simp [cacheGet]
            | cons g tail =>
              cases g with
              | text s2 m2 => simp [convertGroup] at h
              | node gid gnm gattrs gch =>
                rw [convertGroup] at h
                cases hcf : convertForest schema gch c with
                | mk res ca =>
                  rw [hcf] at h
                  cases res with
                  | error e => simp at h
                  | ok children =>
                    simp [cacheSet] at h
                    obtain ⟨d, hd, hdk⟩ :=
                      ((convert_cache_extends schema
                        (INode.sizeL gch)).2.2.2) gch le_rfl c
                        (.ok children) ca hcf
                    have hgetca : cacheGet ca ident = none := by
                      rw [hd, cacheGet_append_right _ _ _ hg]
                      refine cacheGet_of_no_key d ident ?_
                      intro kb hkb hkid
                      apply hni
                      have hmem := hdk kb hkb
                      rw [hkid] at hmem
                      simp [INode.identsL, INode.idents,
                        List.mem_append]
                      tauto
                    rw [← h.2, ← h.1]
                    rw [cacheGet_append_right _ _ _ hgetca]
                    simp [cacheGet]
          · rw [if_neg hty] at h
            simp at h

/-- Converting the same unchanged forest again, against the cache the
first conversion produced, returns value-equal Blocks and the identical
cache: every root is now a cache hit. -/
theorem convertForest_second_run (schema : List String) :
    ∀ (roots : List INode) (c0 : BlockCache) (bs : List Block)
      (c1 : BlockCache),
      (INode.identsL roots).Nodup →
      convertForest schema roots c0 = (.ok bs, c1) →
      convertForest schema roots c1 = (.ok bs, c1) ∧
      ∀ r ∈ roots, (cacheGet c1 r.ident).isSome = true := by
  intro roots
  induction roots with
  | nil =>
    intro c0 bs c1 hnd h
    simp [convertForest] at h
    refine ⟨by simp [convertForest, h.1], by simp⟩
  | cons n0 rest ih =>
    intro c0 bs c1 hnd h
    rw [INode.identsL, List.nodup_append] at hnd
    obtain ⟨hnd0, hndr, _⟩ := hnd
    rw [convertForest] at h
    cases hcn : convertNode schema n0 c0 with
    | mk res ca =>
      rw [hcn] at h
      cases res with
      | error e => simp at h
      | ok b =>
        simp only at h
        cases hcf : convertForest schema rest ca with
        | mk res2 c1' =>
          rw [hcf] at h
          cases res2 with
          | error e => simp at h
          | ok bs' =>
            simp at h
            obtain ⟨hbs, hc1⟩ := h
            subst hc1
            have hcached : cacheGet ca n0.ident = some b :=
              convert_ok_cached schema n0 hnd0 c0 b ca hcn
            obtain ⟨d, hd, _⟩ := ((convert_cache_extends schema
              (INode.sizeL rest)).2.2.2) rest le_rfl ca (.ok bs') c1' hcf
            have hc1get : cacheGet c1' n0.ident = some b := by
              rw [hd]
              exact cacheGet_append_left _ _ _ _ hcached
            obtain ⟨hrest2, hrestmem⟩ := ih ca bs' c1' hndr hcf
            have hhit : convertNode schema n0 c1' = (.ok b, c1') := by
              cases n0 with
              | text s m => simp [convertNode] at hcn
              | node ident nm attrs ch =>
                rw [convertNode]
                simp only [INode.ident] at hc1get
                rw [hc1get]
            constructor
            · rw [convertForest, hhit]
              simp only [hrest2, ← hbs]
            · intro r hr
              rcases List.mem_cons.mp hr with hr | hr
              · subst hr
                simp [hc1get]
              · exact hrestmem r hr

/-- C7: reading `topLevelBlocks` twice with no intervening edit returns
value-equal Block values — the cache is keyed by flat-node identity, the
unchanged nodes retain their identities, so the second conversion of
every top-level frame is a cache hit returning the previously computed
Block and leaving the cache untouched. -/
theorem topLevelBlocks_cache_sound (schema : List String) (doc : INode)
    (c0 : BlockCache) (bs : List Block) (c1 : BlockCache)
    (hnd : (INode.identsL (docTopFrames doc)).Nodup)
    (h : topLevelBlocks schema doc c0 = (.ok bs, c1)) :
    topLevelBlocks schema doc c1 = (.ok bs, c1) ∧
    ∀ r ∈ docTopFrames doc, (cacheGet c1 r.ident).isSome = true :=
  convertForest_second_run schema (docTopFrames doc) c0 bs c1 hnd h

/-- Witness for C7: a concrete two-frame snapshot converted from the
empty cache, then converted again against the resulting cache. -/
theorem topLevelBlocks_cache_sound_witness :
    topLevelBlocks ["paragraph"] cacheDoc
        [(2, Block.mk "a" "paragraph" [] [⟨"x", []⟩] []),
         (3, Block.mk "b" "paragraph" [] [⟨"x", []⟩] [])] =
      (.ok [Block.mk "a" "paragraph" [] [⟨"x", []⟩] [],
            Block.mk "b" "paragraph" [] [⟨"x", []⟩] []],
       [(2, Block.mk "a" "paragraph" [] [⟨"x", []⟩] []),
        (3, Block.mk "b" "paragraph" [] [⟨"x", []⟩] [])]) ∧
    ∀ r ∈ docTopFrames cacheDoc,
      (cacheGet [(2, Block.mk "a" "paragraph" [] [⟨"x", []⟩] []),
        (3, Block.mk "b" "paragraph" [] [⟨"x", []⟩] [])]
        r.ident).isSome = true :=
  topLevelBlocks_cache_sound ["paragraph"] cacheDoc []
    [Block.mk "a" "paragraph" [] [⟨"x", []⟩] [],
     Block.mk "b" "paragraph" [] [⟨"x", []⟩] []]
    [(2, Block.mk "a" "paragraph" [] [⟨"x", []⟩] []),
     (3, Block.mk "b" "paragraph" [] [⟨"x", []⟩] [])]
    (by decide) rfl
